import Mathlib

/-!
Verification of the `combine` Ansible filter plugin
(`roles/agnosticv/filter_plugins/combine.py`).

The Python data domain (JSON-like values: `None`, ints, strings, lists,
dicts) is embedded as the inductive type `Value`.  Python dicts are
insertion-ordered association lists with unique keys; Python `==` on these
values (deep structural equality, dict-key-order-insensitive) is embedded as
`pyEq`, defined as equality of canonical forms in which every dict is sorted
by key.  The functions `merge_hash`, `flatten` and `combine_devel` are
translated clause by clause from the source.

A second, heap-level embedding (`mergeH`) of the same `merge_hash` code makes
the mutation behaviour of the Python code observable: objects live at
addresses in an explicit heap, `x.copy()` is an allocation, `x[key] = v` is a
store, and we prove that a merge never writes to any pre-existing address, so
both inputs read back unchanged.
-/

/-- The JSON-like value domain of the plugin: Python `None`, `int`, `str`,
`list` and `dict` (an insertion-ordered association list). -/
inductive Value where
  | null : Value
  | int (n : Int) : Value
  | str (s : String) : Value
  | seq (elems : List Value) : Value
  | map (entries : List (String × Value)) : Value

mutual
/-- Boolean structural equality on `Value` (order-sensitive also for dicts;
used to build decidable equality and, through `canon`, Python equality). -/
def beqV : Value → Value → Bool
  | .null, .null => true
  | .int a, .int b => a == b
  | .str a, .str b => a == b
  | .seq a, .seq b => beqVL a b
  | .map a, .map b => beqVM a b
  | _, _ => false

/-- Pointwise `beqV` on lists of values. -/
def beqVL : List Value → List Value → Bool
  | [], [] => true
  | a :: l, b :: l2 => beqV a b && beqVL l l2
  | _, _ => false

/-- Pointwise `beqV` on association lists. -/
def beqVM : List (String × Value) → List (String × Value) → Bool
  | [], [] => true
  | (k, v) :: l, (k2, v2) :: l2 => k == k2 && beqV v v2 && beqVM l l2
  | _, _ => false
end

/-- Strong-induction principle for `Value` that descends into the elements of
sequences and the values of mappings. -/
theorem Value.inductionOn (motive : Value → Prop)
    (hnull : motive .null) (hint : ∀ n, motive (.int n)) (hstr : ∀ s, motive (.str s))
    (hseq : ∀ l, (∀ v ∈ l, motive v) → motive (.seq l))
    (hmap : ∀ m, (∀ p ∈ m, motive p.2) → motive (.map m)) : ∀ v, motive v := by
  have key : ∀ n : Nat, ∀ v : Value, sizeOf v ≤ n → motive v := by
    intro n
    induction n with
    | zero =>
      intro v hv
      cases v <;> simp at hv
    | succ n ih =>
      intro v hv
      cases v with
      | null => exact hnull
      | int k => exact hint k
      | str s => exact hstr s
      | seq l =>
        refine hseq l (fun w hw => ih w ?_)
        have h1 := List.sizeOf_lt_of_mem hw
        simp at hv
        omega
      | map m =>
        refine hmap m (fun p hp => ih p.2 ?_)
        have h1 := List.sizeOf_lt_of_mem hp
        have h2 : sizeOf p.2 < sizeOf p := by
          obtain ⟨a, b⟩ := p
          simp only [Prod.mk.sizeOf_spec]
          omega
        simp at hv
        omega
  exact fun v => key (sizeOf v) v le_rfl

theorem beqV_refl : ∀ v : Value, beqV v v = true := by
  intro v
  induction v using Value.inductionOn with
  | hnull => rfl
  | hint n => simp [beqV]
  | hstr s => simp [beqV]
  | hseq l ih =>
    show beqVL l l = true
    induction l with
    | nil => rfl
    | cons a l ihl =>
      simp [beqVL]
      exact ⟨ih a (by simp), ihl (fun v hv => ih v (by simp [hv]))⟩
  | hmap m ih =>
    show beqVM m m = true
    induction m with
    | nil => rfl
    | cons p m ihm =>
      obtain ⟨k, v⟩ := p
      simp [beqVM]
      exact ⟨ih (k, v) (by simp), ihm (fun q hq => ih q (by simp [hq]))⟩

theorem beqV_eq : ∀ v w : Value, beqV v w = true → v = w := by
  intro v
  induction v using Value.inductionOn with
  | hnull => intro w h; cases w <;> simp [beqV] at h ⊢
  | hint n => intro w h; cases w <;> simp [beqV] at h ⊢; exact h
  | hstr s => intro w h; cases w <;> simp [beqV] at h ⊢; exact h
  | hseq l ih =>
    intro w h
    cases w with
    | seq l2 =>
      simp only [Value.seq.injEq]
      induction l generalizing l2 with
      | nil => cases l2 with
        | nil => rfl
        | cons b l2 => simp [beqV, beqVL] at h
      | cons a l ihl =>
        cases l2 with
        | nil => simp [beqV, beqVL] at h
        | cons b l2 =>
          simp [beqV, beqVL] at h
          obtain ⟨h1, h2⟩ := h
          have ha := ih a (by simp) b h1
          have hl := ihl (fun v hv => ih v (by simp [hv])) l2 (by simp [beqV, beqVL, h2])
          simp [ha, hl]
    | null => simp [beqV] at h
    | int n => simp [beqV] at h
    | str s => simp [beqV] at h
    | map m => simp [beqV] at h
  | hmap m ih =>
    intro w h
    cases w with
    | map m2 =>
      simp only [Value.map.injEq]
      induction m generalizing m2 with
      | nil => cases m2 with
        | nil => rfl
        | cons q m2 => simp [beqV, beqVM] at h
      | cons p m ihm =>
        cases m2 with
        | nil =>
          obtain ⟨k, v⟩ := p
          simp [beqV, beqVM] at h
        | cons q m2 =>
          obtain ⟨k, v⟩ := p
          obtain ⟨k2, v2⟩ := q
          simp [beqV, beqVM] at h
          obtain ⟨⟨hk, hv⟩, hm⟩ := h
          have hv2 : v = v2 := ih (k, v) (by simp) v2 hv
          have hm2 := ihm (fun q hq => ih q (by simp [hq])) m2 (by simp [beqV, beqVM, hm])
          simp [hk, hv2, hm2]
    | null => simp [beqV] at h
    | int n => simp [beqV] at h
    | str s => simp [beqV] at h
    | seq l => simp [beqV] at h

instance : DecidableEq Value := fun v w =>
  if h : beqV v w = true then .isTrue (beqV_eq v w h)
  else .isFalse (fun he => h (he ▸ beqV_refl v))

/-- Byte-wise comparison of character lists (a linear order used only to pick
a canonical ordering of dict keys; any linear order would do). -/
def charsLe : List Char → List Char → Bool
  | [], _ => true
  | _ :: _, [] => false
  | a :: l, b :: l2 =>
    if a.toNat < b.toNat then true
    else if b.toNat < a.toNat then false
    else charsLe l l2

/-- The key order used by the canonicalizer. -/
def strLe (a b : String) : Bool := charsLe a.data b.data

theorem charsLe_total : ∀ a b : List Char, charsLe a b = true ∨ charsLe b a = true := by
  intro a
  induction a with
  | nil => intro b; left; rfl
  | cons x l ih =>
    intro b
    cases b with
    | nil => right; rfl
    | cons y l2 =>
      by_cases h1 : x.toNat < y.toNat
      · left; simp [charsLe, h1]
      · by_cases h2 : y.toNat < x.toNat
        · right; simp [charsLe, h2]
        · rcases ih l2 with h | h
          · left; simp [charsLe, h1, h2, h]
          · right; simp [charsLe, h1, h2, h]

theorem charsLe_cons (x y : Char) (l l2 : List Char) :
    charsLe (x :: l) (y :: l2) =
      if x.toNat < y.toNat then true
      else if y.toNat < x.toNat then false
      else charsLe l l2 := rfl

theorem charsLe_antisymm : ∀ a b : List Char, charsLe a b = true → charsLe b a = true → a = b := by
  intro a
  induction a with
  | nil =>
    intro b _ hb
    cases b with
    | nil => rfl
    | cons y l2 => simp [charsLe] at hb
  | cons x l ih =>
    intro b ha hb
    cases b with
    | nil => simp [charsLe] at ha
    | cons y l2 =>
      rw [charsLe_cons] at ha hb
      rcases Nat.lt_trichotomy x.toNat y.toNat with h1 | h1 | h1
      · rw [if_neg (by omega), if_pos h1] at hb
        simp at hb
      · have hx : x = y := by
          have h2 := h1
          simp [Char.toNat] at h2
          exact Char.eq_of_val_eq (UInt32.eq_of_val_eq (Fin.eq_of_val_eq h2))
        rw [if_neg (by omega), if_neg (by omega)] at ha hb
        rw [hx, ih l2 ha hb]
      · rw [if_neg (by omega), if_pos h1] at ha
        simp at ha

theorem charsLe_trans : ∀ a b c : List Char,
    charsLe a b = true → charsLe b c = true → charsLe a c = true := by
  intro a
  induction a with
  | nil => intro b c _ _; rfl
  | cons x l ih =>
    intro b c hab hbc
    cases b with
    | nil => simp [charsLe] at hab
    | cons y l2 =>
      cases c with
      | nil => simp [charsLe] at hbc
      | cons z l3 =>
        rw [charsLe_cons] at hab hbc ⊢
        by_cases hyx : y.toNat < x.toNat
        · rw [if_neg (by omega), if_pos hyx] at hab
          simp at hab
        · by_cases hzy : z.toNat < y.toNat
          · rw [if_neg (by omega), if_pos hzy] at hbc
            simp at hbc
          · by_cases hxz : x.toNat < z.toNat
            · rw [if_pos hxz]
            · rw [if_neg hxz, if_neg (by omega)]
              rw [if_neg (by omega), if_neg hyx] at hab
              rw [if_neg (by omega), if_neg hzy] at hbc
              exact ih l2 l3 hab hbc

theorem strLe_total (a b : String) : strLe a b = true ∨ strLe b a = true :=
  charsLe_total a.data b.data

theorem strLe_antisymm (a b : String) (h1 : strLe a b = true) (h2 : strLe b a = true) : a = b :=
  String.ext (charsLe_antisymm _ _ h1 h2)

theorem strLe_trans (a b c : String) (h1 : strLe a b = true) (h2 : strLe b c = true) :
    strLe a c = true := charsLe_trans _ _ _ h1 h2

/-- Insert one entry into a key-sorted association list. -/
def insertK (p : String × Value) : List (String × Value) → List (String × Value)
  | [] => [p]
  | q :: l => if strLe p.1 q.1 then p :: q :: l else q :: insertK p l

/-- Sort an association list by key (insertion sort). -/
def sortK : List (String × Value) → List (String × Value)
  | [] => []
  | p :: l => insertK p (sortK l)

mutual
/-- Canonical form of a value: every dict, at every depth, is sorted by key.
Two values with unique dict keys are Python-`==`-equal iff their canonical
forms coincide. -/
def canon : Value → Value
  | .null => .null
  | .int n => .int n
  | .str s => .str s
  | .seq l => .seq (canonL l)
  | .map m => .map (sortK (canonM m))

/-- `canon` mapped over a list of values. -/
def canonL : List Value → List Value
  | [] => []
  | v :: l => canon v :: canonL l

/-- `canon` mapped over the values of an association list. -/
def canonM : List (String × Value) → List (String × Value)
  | [] => []
  | (k, v) :: m => (k, canon v) :: canonM m
end

/-- Python `==` on embedded values: deep structural equality that ignores
dict key order (dict equality in Python compares key sets and the values at
each key). -/
def pyEq (a b : Value) : Bool := beqV (canon a) (canon b)

theorem pyEq_refl (a : Value) : pyEq a a = true := beqV_refl (canon a)

theorem pyEq_iff_canon (a b : Value) : pyEq a b = true ↔ canon a = canon b := by
  constructor
  · exact beqV_eq _ _
  · intro h; simp only [pyEq, h]; exact beqV_refl _

/-- Python `d[k]` on an association-list dict (first matching key). -/
def lookupV (k : String) : List (String × Value) → Option Value
  | [] => none
  | (k2, v) :: rest => if k2 = k then some v else lookupV k rest

/-- Python `d[k] = v` on an association-list dict: replace the value of an
existing key in place, otherwise append the new entry at the end. -/
def setKey : List (String × Value) → String → Value → List (String × Value)
  | [], k, v => [(k, v)]
  | (k2, v2) :: rest, k, v =>
    if k2 = k then (k, v) :: rest else (k2, v2) :: setKey rest k v

/-- Python `x.update(y)`: set every entry of `y` into `x`, in `y`'s order. -/
def dictUpdate (x y : List (String × Value)) : List (String × Value) :=
  y.foldl (fun acc p => setKey acc p.1 p.2) x

/-- The six recognized `list_merge` values (source line 39). -/
def policies : List String := ["replace", "keep", "append", "prepend", "append_rp", "prepend_rp"]

/-- Python `z in l` for a list `l` (membership by `==`). -/
def pyMem (z : Value) (l : List Value) : Bool := l.any (fun w => pyEq z w)

/-- The errors `merge_hash` can raise: the `list_merge` validation error of
line 40 and the non-dict operand error raised by `_validate_mutable_mappings`. -/
inductive MergeErr where
  | invalidPolicy : MergeErr
  | typeMismatch (msg : String) : MergeErr

/-- Python `type(v).__name__` for the embedded values. -/
def typeName : Value → String
  | .null => "NoneType"
  | .int _ => "int"
  | .str _ => "str"
  | .seq _ => "list"
  | .map _ => "dict"

/-- JSON string escaping for the two characters that always need it
(the embedded strings are plain text, so this is the whole of
`json.dumps`'s escaping that can arise here). -/
def escapeJson (s : String) : String :=
  s.data.foldl
    (fun acc c =>
      if c = '"' then acc ++ "\\\""
      else if c = '\\' then acc ++ "\\\\"
      else acc ++ String.singleton c)
    ""

mutual
/-- `json.dumps` on the embedded values (every `Value` is JSON-serializable,
so the `to_native` fallback of `_validate_mutable_mappings` is unreachable). -/
def dumps : Value → String
  | .null => "null"
  | .int n => toString n
  | .str s => "\"" ++ escapeJson s ++ "\""
  | .seq l => "[" ++ dumpsL l ++ "]"
  | .map m => "\x7b" ++ dumpsM m ++ "\x7d"

/-- Comma-separated `dumps` of list elements (json.dumps list body). -/
def dumpsL : List Value → String
  | [] => ""
  | [v] => dumps v
  | v :: l => dumps v ++ ", " ++ dumpsL l

/-- Comma-separated `dumps` of dict entries (json.dumps dict body). -/
def dumpsM : List (String × Value) → String
  | [] => ""
  | [(k, v)] => "\"" ++ escapeJson k ++ "\": " ++ dumps v
  | (k, v) :: m => "\"" ++ escapeJson k ++ "\": " ++ dumps v ++ ", " ++ dumpsM m
end

/-- The error message built by `_validate_mutable_mappings` (source lines
22-31): the two runtime type names followed by the serializations of the two
operands. -/
def combineErrMsg (x y : Value) : String :=
  "failed to combine variables, expected dicts but got a '" ++ typeName x ++
    "' and a '" ++ typeName y ++ "': \n" ++ dumps x ++ "\n" ++ dumps y

/-- The list-combination policy applied to two colliding list values
(source lines 92-113); `keep` leaves the existing `x` value in place. -/
def listMergeOp (list_merge : String) (xl yl : List Value) : Value :=
  if list_merge == "replace" then .seq yl
  else if list_merge == "append" then .seq (xl ++ yl)
  else if list_merge == "prepend" then .seq (yl ++ xl)
  else if list_merge == "append_rp" then .seq (xl.filter (fun z => ! pyMem z yl) ++ yl)
  else if list_merge == "prepend_rp" then .seq (yl ++ xl.filter (fun z => ! pyMem z yl))
  else .seq xl

mutual
/-- `merge_hash(x, y, recursive=True, list_merge='replace')`, source lines
33-118, translated clause by clause: the `list_merge` validation, the
`_validate_mutable_mappings` check, the `x == {} or x == y` fast path, the
`dict.update` fast path, and the general per-key loop (`mergeEntries`).
`fuel` bounds the recursion depth (every recursive call decrements it) and
`none` means the bound was hit; the Python recursion terminates on all
finite inputs, so the theorems quantify over every sufficient fuel. -/
def merge_hash : Nat → Value → Value → Bool → String → Option (Except MergeErr Value)
  | 0, _, _, _, _ => none
  | fuel+1, x, y, recursive, list_merge =>
    if ! policies.contains list_merge then some (.error .invalidPolicy)
    else match x, y with
      | .map mx, .map my =>
        if pyEq x (.map []) || pyEq x y then some (.ok (.map my))
        else if !recursive && list_merge == "replace" then
          some (.ok (.map (dictUpdate mx my)))
        else match mergeEntries fuel mx my recursive list_merge with
          | some (.ok z) => some (.ok (.map z))
          | some (.error e) => some (.error e)
          | none => none
      | _, _ => some (.error (.typeMismatch (combineErrMsg x y)))

/-- The per-key loop of `merge_hash` (source lines 68-118): `acc` is the
working copy of `x`, `rest` the remaining items of `y`. -/
def mergeEntries : Nat → List (String × Value) → List (String × Value) → Bool → String →
    Option (Except MergeErr (List (String × Value)))
  | 0, _, _, _, _ => none
  | fuel+1, acc, rest, recursive, list_merge =>
    match rest with
    | [] => some (.ok acc)
    | (key, y_value) :: rest2 =>
      match lookupV key acc with
      | none => mergeEntries fuel (setKey acc key y_value) rest2 recursive list_merge
      | some x_value =>
        match x_value, y_value with
        | .map mxv, .map myv =>
          if recursive then
            match merge_hash fuel (.map mxv) (.map myv) recursive list_merge with
            | some (.ok m) => mergeEntries fuel (setKey acc key m) rest2 recursive list_merge
            | some (.error e) => some (.error e)
            | none => none
          else mergeEntries fuel (setKey acc key y_value) rest2 recursive list_merge
        | .seq xl, .seq yl =>
          mergeEntries fuel (setKey acc key (listMergeOp list_merge xl yl)) rest2
            recursive list_merge
        | _, _ => mergeEntries fuel (setKey acc key y_value) rest2 recursive list_merge
end

mutual
/-- `merge_hash` with the two fast paths (source lines 45-60) removed, so the
general per-key loop always runs; the comment at lines 45-47 asserts this
variant returns the same results as `merge_hash`. -/
def mergeGen : Nat → Value → Value → Bool → String → Option (Except MergeErr Value)
  | 0, _, _, _, _ => none
  | fuel+1, x, y, recursive, list_merge =>
    if ! policies.contains list_merge then some (.error .invalidPolicy)
    else match x, y with
      | .map mx, .map my =>
        match mergeGenEntries fuel mx my recursive list_merge with
        | some (.ok z) => some (.ok (.map z))
        | some (.error e) => some (.error e)
        | none => none
      | _, _ => some (.error (.typeMismatch (combineErrMsg x y)))

/-- The per-key loop of `mergeGen` (same code as `mergeEntries`, recursing
into `mergeGen`). -/
def mergeGenEntries : Nat → List (String × Value) → List (String × Value) → Bool → String →
    Option (Except MergeErr (List (String × Value)))
  | 0, _, _, _, _ => none
  | fuel+1, acc, rest, recursive, list_merge =>
    match rest with
    | [] => some (.ok acc)
    | (key, y_value) :: rest2 =>
      match lookupV key acc with
      | none => mergeGenEntries fuel (setKey acc key y_value) rest2 recursive list_merge
      | some x_value =>
        match x_value, y_value with
        | .map mxv, .map myv =>
          if recursive then
            match mergeGen fuel (.map mxv) (.map myv) recursive list_merge with
            | some (.ok m) => mergeGenEntries fuel (setKey acc key m) rest2 recursive list_merge
            | some (.error e) => some (.error e)
            | none => none
          else mergeGenEntries fuel (setKey acc key y_value) rest2 recursive list_merge
        | .seq xl, .seq yl =>
          mergeGenEntries fuel (setKey acc key (listMergeOp list_merge xl yl)) rest2
            recursive list_merge
        | _, _ => mergeGenEntries fuel (setKey acc key y_value) rest2 recursive list_merge
end

/-- The sentinel test of `flatten` (source line 124): Python
`element in (None, 'None', 'null')`. -/
def isUndef : Value → Bool
  | .null => true
  | .str s => s == "None" || s == "null"
  | _ => false

mutual
/-- `flatten(mylist, levels=None)`, source lines 120-138: iterate in order,
`break` on a sentinel, splice nested sequences while depth remains, append
other elements as they are. -/
def flatten : List Value → Option Int → List Value
  | [], _ => []
  | e :: rest, levels =>
    if isUndef e then []
    else flattenElem e levels ++ flatten rest levels

/-- The contribution of one (non-sentinel) element to `flatten`'s output:
sequences are recursively flattened while `levels` allows, everything else
(including a sequence once the depth counter is exhausted) is appended
whole.  Strings and dicts are not sequences (`is_sequence`). -/
def flattenElem : Value → Option Int → List Value
  | .seq inner, none => flatten inner none
  | .seq inner, some n => if 1 ≤ n then flatten inner (some (n - 1)) else [.seq inner]
  | e, _ => [e]
end

/-- The right-to-left fold of the driver (source lines 171-174): `acc` is the
already-merged higher-precedence aggregate, and each step merges the next
lower-precedence document under it.  The same `fuel` is handed to each
(independent) `merge_hash` call. -/
def mergeFoldRTL (fuel : Nat) : Value → List Value → Bool → String →
    Option (Except MergeErr Value)
  | acc, [], _, _ => some (.ok acc)
  | acc, d :: rest, recursive, list_merge =>
    match merge_hash fuel d acc recursive list_merge with
    | some (.ok acc2) => mergeFoldRTL fuel acc2 rest recursive list_merge
    | some (.error e) => some (.error e)
    | none => none

/-- `combine_devel(*terms, recursive=False, list_merge='replace')`, source
lines 144-176: flatten the arguments one level, return `{}` for no documents
and the single document unchanged, otherwise fold right-to-left starting
from the highest-precedence document.  The `recursive_check_defined` call is
the external templating resolver's no-op on fully resolved values and the
keyword-argument validation has no counterpart for fixed Lean arguments. -/
def combine_devel (fuel : Nat) (terms : List Value) (recursive : Bool) (list_merge : String) :
    Option (Except MergeErr Value) :=
  let dictionaries := flatten terms (some 1)
  match dictionaries with
  | [] => some (.ok (.map []))
  | [d] => some (.ok d)
  | _ =>
    match dictionaries.reverse with
    | [] => some (.ok (.map []))
    | d :: rest => mergeFoldRTL fuel d rest recursive list_merge

/-- Modelled from the spec: the straightforward left-to-right fold the
driver's right-to-left fold is claimed to be equivalent to — the accumulator
starts at the first document and each later document is merged over it as
the override (`y`) operand. -/
def mergeFoldLTR (fuel : Nat) : Value → List Value → Bool → String →
    Option (Except MergeErr Value)
  | acc, [], _, _ => some (.ok acc)
  | acc, d :: rest, recursive, list_merge =>
    match merge_hash fuel acc d recursive list_merge with
    | some (.ok acc2) => mergeFoldLTR fuel acc2 rest recursive list_merge
    | some (.error e) => some (.error e)
    | none => none

/-- Modelled from the spec: left-to-right combination of a document list,
the reference point of the fold-equivalence claim. -/
def combineLTR (fuel : Nat) (ds : List Value) (recursive : Bool) (list_merge : String) :
    Option (Except MergeErr Value) :=
  match ds with
  | [] => some (.ok (.map []))
  | d :: rest => mergeFoldLTR fuel d rest recursive list_merge

theorem flatten_break (s : Value) (hs : isUndef s = true) :
    ∀ (pre post : List Value) (levels : Option Int),
    flatten (pre ++ s :: post) levels = flatten pre levels := by
  intro pre
  induction pre with
  | nil => intro post levels; simp [flatten, hs]
  | cons e pre ih =>
    intro post levels
    by_cases he : isUndef e = true
    · simp [flatten, he]
    · simp [flatten, he, ih]

/-- C4: `flatten` walks its input in order and, on reaching an element equal
to one of the sentinels (`None`, `"None"`, `"null"`), stops entirely,
discarding that element and everything after it; in particular
`flatten([1,[2,[3,4]],None,5], levels=1) = [1,2,[3,4]]`. -/
theorem flatten_sentinel_truncates (pre post : List Value) (s : Value) (levels : Option Int)
    (hs : isUndef s = true) :
    flatten (pre ++ s :: post) levels = flatten pre levels ∧
    flatten [.int 1, .seq [.int 2, .seq [.int 3, .int 4]], .null, .int 5] (some 1)
      = [.int 1, .int 2, .seq [.int 3, .int 4]] :=
  ⟨flatten_break s hs pre post levels, rfl⟩

theorem flatten_sentinel_truncates_witness :
    flatten [Value.null, Value.int 7] (some 1) = flatten [] (some 1) ∧
    flatten [.int 1, .seq [.int 2, .seq [.int 3, .int 4]], .null, .int 5] (some 1)
      = [.int 1, .int 2, .seq [.int 3, .int 4]] :=
  flatten_sentinel_truncates [] [Value.int 7] .null (some 1) rfl

/-- C10: a sentinel inside a nested sub-sequence ends only the flattening of
that sub-sequence; elements of the outer sequence after it are still
processed — e.g. `flatten([[1,None,2],3], levels=1) = [1,3]`. -/
theorem flatten_nested_sentinel_local (pre post rest : List Value) (s : Value) (n : Int)
    (hs : isUndef s = true) (hn : 1 ≤ n) :
    flatten (.seq (pre ++ s :: post) :: rest) (some n)
      = flatten pre (some (n - 1)) ++ flatten rest (some n) ∧
    flatten [.seq [.int 1, .null, .int 2], .int 3] (some 1) = [.int 1, .int 3] := by
  refine ⟨?_, rfl⟩
  simp [flatten, flattenElem, isUndef, hn, flatten_break s hs]

theorem flatten_nested_sentinel_local_witness :
    flatten [.seq [.int 1, .null, .int 2], .int 3] (some 1)
      = flatten [.int 1] (some 0) ++ flatten [.int 3] (some 1) ∧
    flatten [.seq [.int 1, .null, .int 2], .int 3] (some 1) = [.int 1, .int 3] :=
  flatten_nested_sentinel_local [.int 1] [.int 2] [.int 3] .null 1 rfl (by decide)

/-- C3: on `x = ('l' ↦ [1,2,3])` and `y = ('l' ↦ [3,4])`, each of the six
`list_merge` policies produces exactly the list the spec's table gives:
replace `[3,4]`, keep `[1,2,3]`, append `[1,2,3,3,4]`, prepend `[3,4,1,2,3]`,
append_rp `[1,2,3,4]`, prepend_rp `[3,4,1,2]`. -/
theorem merge_hash_list_policies_example :
    merge_hash 9 (.map [("l", .seq [.int 1, .int 2, .int 3])])
        (.map [("l", .seq [.int 3, .int 4])]) true "replace"
      = some (.ok (.map [("l", .seq [.int 3, .int 4])])) ∧
    merge_hash 9 (.map [("l", .seq [.int 1, .int 2, .int 3])])
        (.map [("l", .seq [.int 3, .int 4])]) true "keep"
      = some (.ok (.map [("l", .seq [.int 1, .int 2, .int 3])])) ∧
    merge_hash 9 (.map [("l", .seq [.int 1, .int 2, .int 3])])
        (.map [("l", .seq [.int 3, .int 4])]) true "append"
      = some (.ok (.map [("l", .seq [.int 1, .int 2, .int 3, .int 3, .int 4])])) ∧
    merge_hash 9 (.map [("l", .seq [.int 1, .int 2, .int 3])])
        (.map [("l", .seq [.int 3, .int 4])]) true "prepend"
      = some (.ok (.map [("l", .seq [.int 3, .int 4, .int 1, .int 2, .int 3])])) ∧
    merge_hash 9 (.map [("l", .seq [.int 1, .int 2, .int 3])])
        (.map [("l", .seq [.int 3, .int 4])]) true "append_rp"
      = some (.ok (.map [("l", .seq [.int 1, .int 2, .int 3, .int 4])])) ∧
    merge_hash 9 (.map [("l", .seq [.int 1, .int 2, .int 3])])
        (.map [("l", .seq [.int 3, .int 4])]) true "prepend_rp"
      = some (.ok (.map [("l", .seq [.int 3, .int 4, .int 1, .int 2])])) :=
  ⟨rfl, rfl, rfl, rfl, rfl, rfl⟩

/-- C2 evidence: on `x = y = ('l' ↦ [1])` with `list_merge='append'`, the
`x == y` fast path of `merge_hash` returns `('l' ↦ [1])`, while the general
per-key loop (`mergeGen`, the code with the fast paths removed) returns
`('l' ↦ [1,1])`, and the two results are not Python-equal — contradicting
the source comment (lines 45-47) and the spec sentence that the fast paths
preserve identical results. -/
theorem merge_hash_fast_path_divergence :
    merge_hash 9 (.map [("l", .seq [.int 1])]) (.map [("l", .seq [.int 1])]) true "append"
      = some (.ok (.map [("l", .seq [.int 1])])) ∧
    mergeGen 9 (.map [("l", .seq [.int 1])]) (.map [("l", .seq [.int 1])]) true "append"
      = some (.ok (.map [("l", .seq [.int 1, .int 1])])) ∧
    pyEq (.map [("l", .seq [.int 1])]) (.map [("l", .seq [.int 1, .int 1])]) = false :=
  ⟨rfl, rfl, rfl⟩

/-- Well-formedness of one dict level: Python dicts have unique keys. -/
def NodupK (m : List (String × Value)) : Prop := (m.map Prod.fst).Nodup

instance (m : List (String × Value)) : Decidable (NodupK m) := by
  rw [NodupK]; infer_instance

/-- First-some choice on options: the combinator describing which operand a
key's merged value comes from. -/
def orO (a b : Option Value) : Option Value :=
  match a with
  | some v => some v
  | none => b

@[simp] theorem orO_some (v : Value) (b : Option Value) : orO (some v) b = some v := rfl

@[simp] theorem orO_none (b : Option Value) : orO none b = b := rfl

@[simp] theorem orO_none_right (a : Option Value) : orO a none = a := by
  cases a <;> rfl

theorem orO_assoc (a b c : Option Value) : orO (orO a b) c = orO a (orO b c) := by
  cases a <;> rfl

theorem lookupV_setKey (m : List (String × Value)) (k : String) (v : Value) (j : String) :
    lookupV j (setKey m k v) = if k = j then some v else lookupV j m := by
  induction m with
  | nil => by_cases h : k = j <;> simp [setKey, lookupV, h]
  | cons p m ih =>
    obtain ⟨k2, v2⟩ := p
    by_cases h : k2 = k
    · subst h
      by_cases h2 : k2 = j <;> simp [setKey, lookupV, h2]
    · by_cases h2 : k2 = j
      · subst h2
        have hkj : ¬ k = k2 := fun hh => h hh.symm
        simp [setKey, h, lookupV, hkj]
      · simp [setKey, h, lookupV, h2, ih]

theorem mem_keys_setKey (m : List (String × Value)) (k : String) (v : Value) (j : String) :
    j ∈ (setKey m k v).map Prod.fst ↔ j ∈ m.map Prod.fst ∨ j = k := by
  induction m with
  | nil => simp [setKey]
  | cons p m ih =>
    obtain ⟨k2, v2⟩ := p
    by_cases h : k2 = k
    · subst h
      simp [setKey]
      tauto
    · simp [setKey, h] at ih ⊢
      tauto

theorem nodupK_setKey (m : List (String × Value)) (k : String) (v : Value)
    (h : NodupK m) : NodupK (setKey m k v) := by
  induction m with
  | nil => simp [setKey, NodupK]
  | cons p m ih =>
    obtain ⟨k2, v2⟩ := p
    simp only [NodupK, List.map_cons, List.nodup_cons] at h
    obtain ⟨h1, h2⟩ := h
    by_cases hk : k2 = k
    · rw [show setKey ((k2, v2) :: m) k v = (k, v) :: m by simp [setKey, hk]]
      simp only [NodupK, List.map_cons, List.nodup_cons]
      subst hk
      exact ⟨h1, h2⟩
    · rw [show setKey ((k2, v2) :: m) k v = (k2, v2) :: setKey m k v by simp [setKey, hk]]
      simp only [NodupK, List.map_cons, List.nodup_cons]
      refine ⟨?_, ih h2⟩
      intro hmem
      rcases (mem_keys_setKey m k v k2).1 hmem with hc | hc
      · exact h1 hc
      · exact hk hc

theorem lookupV_eq_none (m : List (String × Value)) (j : String) :
    lookupV j m = none ↔ j ∉ m.map Prod.fst := by
  induction m with
  | nil => simp [lookupV]
  | cons p m ih =>
    obtain ⟨k, v⟩ := p
    by_cases h : k = j
    · subst h; simp [lookupV]
    · simp [lookupV, h, ih, Ne.symm h]

theorem mem_keys_of_lookupV (m : List (String × Value)) (j : String) (w : Value)
    (h : lookupV j m = some w) : j ∈ m.map Prod.fst := by
  by_contra hc
  rw [(lookupV_eq_none m j).2 hc] at h
  simp at h

theorem dictUpdate_cons (x : List (String × Value)) (p : String × Value)
    (y : List (String × Value)) :
    dictUpdate x (p :: y) = dictUpdate (setKey x p.1 p.2) y := rfl

theorem lookupV_dictUpdate (y : List (String × Value)) :
    ∀ (x : List (String × Value)) (j : String), NodupK y →
      lookupV j (dictUpdate x y) = orO (lookupV j y) (lookupV j x) := by
  induction y with
  | nil => intro x j _; simp [dictUpdate, lookupV]
  | cons p y ih =>
    intro x j hnod
    obtain ⟨k, v⟩ := p
    rw [dictUpdate_cons]
    have hnod2 : NodupK y := by
      rw [NodupK] at hnod ⊢
      simp only [List.map_cons, List.nodup_cons] at hnod
      exact hnod.2
    rw [ih (setKey x k v) j hnod2, lookupV_setKey]
    by_cases hj : k = j
    · subst hj
      have hk : k ∉ y.map Prod.fst := by
        rw [NodupK] at hnod
        simp only [List.map_cons, List.nodup_cons] at hnod
        exact hnod.1
      rw [(lookupV_eq_none y k).2 hk]
      simp [lookupV]
    · have hjk : ¬ k = j := hj
      simp [lookupV, hjk]

theorem nodupK_dictUpdate (y : List (String × Value)) :
    ∀ x, NodupK x → NodupK (dictUpdate x y) := by
  induction y with
  | nil => intro x h; exact h
  | cons p y ih =>
    intro x h
    rw [dictUpdate_cons]
    exact ih _ (nodupK_setKey x p.1 p.2 h)

theorem mem_keys_dictUpdate (y : List (String × Value)) :
    ∀ (x : List (String × Value)) (j : String),
      j ∈ (dictUpdate x y).map Prod.fst ↔ j ∈ x.map Prod.fst ∨ j ∈ y.map Prod.fst := by
  induction y with
  | nil => intro x j; simp [dictUpdate]
  | cons p y ih =>
    intro x j
    obtain ⟨k, v⟩ := p
    rw [dictUpdate_cons, ih, mem_keys_setKey]
    simp only [List.map_cons, List.mem_cons]
    tauto

theorem canonM_keys (m : List (String × Value)) :
    (canonM m).map Prod.fst = m.map Prod.fst := by
  induction m with
  | nil => rfl
  | cons p m ih =>
    obtain ⟨k, v⟩ := p
    simp [canonM, ih]

theorem lookupV_canonM (m : List (String × Value)) (j : String) :
    lookupV j (canonM m) = (lookupV j m).map canon := by
  induction m with
  | nil => rfl
  | cons p m ih =>
    obtain ⟨k, v⟩ := p
    by_cases h : k = j <;> simp [canonM, lookupV, h, ih]

theorem strLe_refl (a : String) : strLe a a = true := by
  rcases strLe_total a a with h | h <;> exact h

theorem insertK_perm (p : String × Value) (l : List (String × Value)) :
    (insertK p l).Perm (p :: l) := by
  induction l with
  | nil => exact List.Perm.refl _
  | cons q l ih =>
    rw [insertK]
    by_cases h : strLe p.1 q.1 = true
    · rw [if_pos h]
    · rw [if_neg h]
      exact (ih.cons q).trans (List.Perm.swap p q l)

theorem sortK_perm (l : List (String × Value)) : (sortK l).Perm l := by
  induction l with
  | nil => exact List.Perm.refl _
  | cons p l ih =>
    rw [sortK]
    exact (insertK_perm p (sortK l)).trans (ih.cons p)

/-- The pairwise key order maintained by the canonicalizer's sort. -/
def keyLe (p q : String × Value) : Prop := strLe p.1 q.1 = true

theorem insertK_pairwise (p : String × Value) (l : List (String × Value))
    (h : List.Pairwise keyLe l) : List.Pairwise keyLe (insertK p l) := by
  induction l with
  | nil => simp [insertK, keyLe]
  | cons q l ih =>
    rw [insertK]
    rcases List.pairwise_cons.1 h with ⟨hq, hl⟩
    by_cases hle : strLe p.1 q.1 = true
    · rw [if_pos hle]
      refine List.pairwise_cons.2 ⟨?_, h⟩
      intro b hb
      rcases List.mem_cons.1 hb with rfl | hb
      · exact hle
      · exact strLe_trans _ _ _ hle (hq b hb)
    · rw [if_neg hle]
      refine List.pairwise_cons.2 ⟨?_, ih hl⟩
      intro b hb
      have hb3 := (insertK_perm p l).mem_iff.1 hb
      rcases List.mem_cons.1 hb3 with hbe | hb2
      · rw [hbe]
        rcases strLe_total p.1 q.1 with hc | hc
        · exact absurd hc hle
        · exact hc
      · exact hq b hb2

theorem sortK_pairwise (l : List (String × Value)) : List.Pairwise keyLe (sortK l) := by
  induction l with
  | nil => exact List.Pairwise.nil
  | cons p l ih =>
    rw [sortK]
    exact insertK_pairwise p (sortK l) ih

theorem lookupV_perm : ∀ {l l2 : List (String × Value)}, l.Perm l2 → NodupK l →
    ∀ j, lookupV j l = lookupV j l2 := by
  intro l l2 h
  induction h with
  | nil => intro _ j; rfl
  | cons p h ih =>
    rename_i l1 l2
    intro hnod j
    obtain ⟨k, v⟩ := p
    have hnod2 : NodupK l1 := by
      simp only [NodupK, List.map_cons, List.nodup_cons] at hnod
      exact hnod.2
    by_cases hk : k = j <;> simp [lookupV, hk, ih hnod2 j]
  | swap p q l =>
    intro hnod j
    obtain ⟨k, v⟩ := p
    obtain ⟨k2, v2⟩ := q
    have hne : k2 ≠ k := by
      simp only [NodupK, List.map_cons, List.nodup_cons, List.mem_cons] at hnod
      exact fun he => hnod.1 (Or.inl he)
    by_cases h1 : k = j
    · subst h1
      simp [lookupV, hne]
    · by_cases h2 : k2 = j <;> simp [lookupV, h1, h2]
  | trans h1 h2 ih1 ih2 =>
    rename_i la lb lc
    intro hnod j
    have hnodm : NodupK lb := by
      simp only [NodupK] at hnod ⊢
      exact ((h1.map Prod.fst).nodup_iff).1 hnod
    rw [ih1 hnod j, ih2 hnodm j]

theorem nodupK_of_perm {l l2 : List (String × Value)} (h : l.Perm l2) (hn : NodupK l) :
    NodupK l2 := by
  simp only [NodupK] at hn ⊢
  exact ((h.map Prod.fst).nodup_iff).1 hn

theorem sorted_lookup_ext : ∀ (a b : List (String × Value)),
    List.Pairwise keyLe a → List.Pairwise keyLe b → NodupK a → NodupK b →
    (∀ j, lookupV j a = lookupV j b) → a = b := by
  intro a
  induction a with
  | nil =>
    intro b _ _ _ _ hl
    cases b with
    | nil => rfl
    | cons q b =>
      obtain ⟨k2, v2⟩ := q
      have := hl k2
      simp [lookupV] at this
  | cons p a ih =>
    intro b hpa hpb hna hnb hl
    obtain ⟨k, v⟩ := p
    cases b with
    | nil =>
      have := hl k
      simp [lookupV] at this
    | cons q b =>
      obtain ⟨k2, v2⟩ := q
      have hsa : lookupV k ((k, v) :: a) = some v := by simp [lookupV]
      have hsb : lookupV k2 ((k2, v2) :: b) = some v2 := by simp [lookupV]
      have hmemb : k ∈ ((k2, v2) :: b).map Prod.fst :=
        mem_keys_of_lookupV _ k v (by rw [← hl k]; exact hsa)
      have hmema : k2 ∈ ((k, v) :: a).map Prod.fst :=
        mem_keys_of_lookupV _ k2 v2 (by rw [hl k2]; exact hsb)
      have hk2k : strLe k2 k = true := by
        rw [List.map_cons] at hmemb
        rcases List.mem_cons.1 hmemb with he | hmem
        · rw [he]; exact strLe_refl k2
        · rcases List.mem_map.1 hmem with ⟨r, hr, hrk⟩
          have hpw : keyLe (k2, v2) r := (List.pairwise_cons.1 hpb).1 r hr
          rw [← hrk]
          exact hpw
      have hkk2 : strLe k k2 = true := by
        rw [List.map_cons] at hmema
        rcases List.mem_cons.1 hmema with he | hmem
        · rw [he]; exact strLe_refl k
        · rcases List.mem_map.1 hmem with ⟨r, hr, hrk⟩
          have hpw : keyLe (k, v) r := (List.pairwise_cons.1 hpa).1 r hr
          rw [← hrk]
          exact hpw
      have hkeq : k = k2 := strLe_antisymm k k2 hkk2 hk2k
      subst hkeq
      have hveq : v = v2 := by
        have := hl k
        rw [hsa, hsb] at this
        exact Option.some.inj this
      subst hveq
      have hka : k ∉ a.map Prod.fst := by
        simp only [NodupK, List.map_cons, List.nodup_cons] at hna
        exact hna.1
      have hkb : k ∉ b.map Prod.fst := by
        simp only [NodupK, List.map_cons, List.nodup_cons] at hnb
        exact hnb.1
      have htails : ∀ j, lookupV j a = lookupV j b := by
        intro j
        by_cases hj : j = k
        · subst hj
          rw [(lookupV_eq_none a j).2 hka, (lookupV_eq_none b j).2 hkb]
        · have := hl j
          have hkj : ¬ k = j := fun he => hj he.symm
          simpa [lookupV, hkj] using this
      have hresta : List.Pairwise keyLe a := (List.pairwise_cons.1 hpa).2
      have hrestb : List.Pairwise keyLe b := (List.pairwise_cons.1 hpb).2
      have hnda : NodupK a := by
        simp only [NodupK, List.map_cons, List.nodup_cons] at hna
        exact hna.2
      have hndb : NodupK b := by
        simp only [NodupK, List.map_cons, List.nodup_cons] at hnb
        exact hnb.2
      rw [ih b hresta hrestb hnda hndb htails]

theorem nodupK_sortK_canonM (a : List (String × Value)) (hna : NodupK a) :
    NodupK (sortK (canonM a)) := by
  apply nodupK_of_perm (sortK_perm (canonM a)).symm
  simp only [NodupK, canonM_keys]
  exact hna

theorem pyEq_of_lookup_eq (a b : List (String × Value)) (hna : NodupK a) (hnb : NodupK b)
    (hl : ∀ j, lookupV j a = lookupV j b) : pyEq (.map a) (.map b) = true := by
  have hca : NodupK (canonM a) := by
    simp only [NodupK, canonM_keys]; exact hna
  have hcb : NodupK (canonM b) := by
    simp only [NodupK, canonM_keys]; exact hnb
  have key : sortK (canonM a) = sortK (canonM b) := by
    apply sorted_lookup_ext _ _ (sortK_pairwise _) (sortK_pairwise _)
      (nodupK_sortK_canonM a hna) (nodupK_sortK_canonM b hnb)
    intro j
    rw [lookupV_perm (sortK_perm (canonM a)) (nodupK_sortK_canonM a hna) j,
      lookupV_perm (sortK_perm (canonM b)) (nodupK_sortK_canonM b hnb) j,
      lookupV_canonM, lookupV_canonM, hl j]
  show beqV (canon (.map a)) (canon (.map b)) = true
  rw [show canon (.map a) = .map (sortK (canonM a)) from rfl,
    show canon (.map b) = .map (sortK (canonM b)) from rfl, key]
  exact beqV_refl _

theorem pyEq_map_keys (a b : List (String × Value)) (h : pyEq (.map a) (.map b) = true) :
    ∀ j, j ∈ a.map Prod.fst ↔ j ∈ b.map Prod.fst := by
  have hc := beqV_eq _ _ h
  have hs : sortK (canonM a) = sortK (canonM b) := by
    rw [show canon (.map a) = .map (sortK (canonM a)) from rfl,
      show canon (.map b) = .map (sortK (canonM b)) from rfl] at hc
    exact Value.map.inj hc
  intro j
  have ha : ((sortK (canonM a)).map Prod.fst).Perm (a.map Prod.fst) := by
    have := (sortK_perm (canonM a)).map Prod.fst
    rwa [canonM_keys] at this
  have hb : ((sortK (canonM b)).map Prod.fst).Perm (b.map Prod.fst) := by
    have := (sortK_perm (canonM b)).map Prod.fst
    rwa [canonM_keys] at this
  constructor
  · intro hj
    have h1 := ha.mem_iff.2 hj
    rw [hs] at h1
    exact hb.mem_iff.1 h1
  · intro hj
    have h1 := hb.mem_iff.2 hj
    rw [← hs] at h1
    exact ha.mem_iff.1 h1

theorem pyEq_empty_right (a : List (String × Value)) (h : pyEq (.map a) (.map []) = true) :
    a = [] := by
  have hc := beqV_eq _ _ h
  have hs : sortK (canonM a) = [] := by
    rw [show canon (.map a) = .map (sortK (canonM a)) from rfl,
      show canon (.map []) = .map [] from rfl] at hc
    exact Value.map.inj hc
  have hp := sortK_perm (canonM a)
  rw [hs] at hp
  have hnil : canonM a = [] := hp.symm.eq_nil
  cases a with
  | nil => rfl
  | cons p a =>
    obtain ⟨k, v⟩ := p
    rw [canonM] at hnil
    simp at hnil

theorem merge_hash_replace_eq (fuel : Nat) (mx my : List (String × Value)) :
    merge_hash (fuel+1) (.map mx) (.map my) false "replace"
      = if (pyEq (.map mx) (.map []) || pyEq (.map mx) (.map my)) = true
        then some (.ok (.map my))
        else some (.ok (.map (dictUpdate mx my))) := by
  rw [merge_hash]
  norm_num
  intro h
  exact absurd (show "replace" ∈ policies by simp [policies]) h

theorem merge_replace_nonrec (fuel : Nat) (mx my : List (String × Value))
    (hnx : NodupK mx) (hny : NodupK my) :
    ∃ mz, merge_hash (fuel+1) (.map mx) (.map my) false "replace" = some (.ok (.map mz)) ∧
      NodupK mz ∧ ∀ j, lookupV j mz = orO (lookupV j my) (lookupV j mx) := by
  rw [merge_hash_replace_eq]
  by_cases hfast : (pyEq (.map mx) (.map []) || pyEq (.map mx) (.map my)) = true
  · rw [if_pos hfast]
    refine ⟨my, rfl, hny, ?_⟩
    intro j
    rcases Bool.or_eq_true_iff.1 hfast with he | he
    · have hmx : mx = [] := pyEq_empty_right mx he
      subst hmx
      simp [lookupV]
    · cases hy : lookupV j my with
      | some w => simp
      | none =>
        simp only [orO_none]
        have h1 : j ∉ my.map Prod.fst := (lookupV_eq_none my j).1 hy
        have h2 : j ∉ mx.map Prod.fst := fun hc => h1 ((pyEq_map_keys mx my he j).1 hc)
        rw [(lookupV_eq_none mx j).2 h2]
  · rw [if_neg hfast]
    exact ⟨dictUpdate mx my, rfl, nodupK_dictUpdate my mx hnx,
      fun j => lookupV_dictUpdate my mx j hny⟩

/-- The value a document holds at key `j` (none when it is not a dict or the
key is absent). -/
def docLook (d : Value) (j : String) : Option Value :=
  match d with
  | .map m => lookupV j m
  | _ => none

/-- Rightmost-wins lookup across a document list: the value of `j` in the
highest-indexed document that defines it. -/
def lastLook : List Value → String → Option Value
  | [], _ => none
  | d :: rest, j => orO (lastLook rest j) (docLook d j)

/-- Leftmost-wins lookup across a document list. -/
def firstLook : List Value → String → Option Value
  | [], _ => none
  | d :: rest, j => orO (docLook d j) (firstLook rest j)

theorem firstLook_append (l1 l2 : List Value) (j : String) :
    firstLook (l1 ++ l2) j = orO (firstLook l1 j) (firstLook l2 j) := by
  induction l1 with
  | nil => simp [firstLook]
  | cons d l1 ih => simp [firstLook, ih, orO_assoc]

theorem firstLook_reverse (l : List Value) (j : String) :
    firstLook l.reverse j = lastLook l j := by
  induction l with
  | nil => rfl
  | cons d l ih =>
    rw [List.reverse_cons, firstLook_append, ih]
    simp [firstLook, lastLook]

theorem foldl_orO_first (j : String) :
    ∀ (l : List Value) (o : Option Value),
      l.foldl (fun o d => orO o (docLook d j)) o = orO o (firstLook l j) := by
  intro l
  induction l with
  | nil => intro o; simp [firstLook]
  | cons d l ih =>
    intro o
    rw [List.foldl_cons, ih, firstLook, ← orO_assoc]

theorem foldl_orO_last (j : String) :
    ∀ (l : List Value) (o : Option Value),
      l.foldl (fun o d => orO (docLook d j) o) o = orO (lastLook l j) o := by
  intro l
  induction l with
  | nil => intro o; simp [lastLook]
  | cons d l ih =>
    intro o
    rw [List.foldl_cons, ih, lastLook, orO_assoc]

/-- A fully valid document: a dict with unique keys. -/
def GoodDoc (d : Value) : Prop := ∃ m, d = Value.map m ∧ NodupK m

theorem mergeFoldRTL_replace (fuel : Nat) (ds : List Value) :
    ∀ (ma : List (String × Value)), (∀ d ∈ ds, GoodDoc d) → NodupK ma →
      ∃ mz, mergeFoldRTL (fuel+1) (.map ma) ds false "replace" = some (.ok (.map mz)) ∧
        NodupK mz ∧
        ∀ j, lookupV j mz = ds.foldl (fun o d => orO o (docLook d j)) (lookupV j ma) := by
  induction ds with
  | nil => intro ma _ hna; exact ⟨ma, rfl, hna, fun j => rfl⟩
  | cons d rest ih =>
    intro ma hgood hna
    obtain ⟨md, rfl, hnd⟩ := hgood d (by simp)
    obtain ⟨mz1, hz1, hnz1, hlz1⟩ := merge_replace_nonrec fuel md ma hnd hna
    rw [mergeFoldRTL, hz1]
    obtain ⟨mz, hz, hnz, hlz⟩ := ih mz1 (fun d hd => hgood d (by simp [hd])) hnz1
    refine ⟨mz, hz, hnz, fun j => ?_⟩
    rw [hlz j, List.foldl_cons]
    congr 1
    rw [hlz1 j]
    rfl

theorem mergeFoldLTR_replace (fuel : Nat) (ds : List Value) :
    ∀ (ma : List (String × Value)), (∀ d ∈ ds, GoodDoc d) → NodupK ma →
      ∃ mz, mergeFoldLTR (fuel+1) (.map ma) ds false "replace" = some (.ok (.map mz)) ∧
        NodupK mz ∧
        ∀ j, lookupV j mz = ds.foldl (fun o d => orO (docLook d j) o) (lookupV j ma) := by
  induction ds with
  | nil => intro ma _ hna; exact ⟨ma, rfl, hna, fun j => rfl⟩
  | cons d rest ih =>
    intro ma hgood hna
    obtain ⟨md, rfl, hnd⟩ := hgood d (by simp)
    obtain ⟨mz1, hz1, hnz1, hlz1⟩ := merge_replace_nonrec fuel ma md hna hnd
    rw [mergeFoldLTR, hz1]
    obtain ⟨mz, hz, hnz, hlz⟩ := ih mz1 (fun d hd => hgood d (by simp [hd])) hnz1
    refine ⟨mz, hz, hnz, fun j => ?_⟩
    rw [hlz j, List.foldl_cons]
    congr 1
    rw [hlz1 j]
    rfl

theorem flatten_of_maps (ds : List Value) (h : ∀ d ∈ ds, ∃ m, d = Value.map m)
    (levels : Option Int) : flatten ds levels = ds := by
  induction ds with
  | nil => rfl
  | cons d rest ih =>
    obtain ⟨m, rfl⟩ := h d (by simp)
    rw [flatten]
    rw [if_neg (by simp [isUndef])]
    rw [ih (fun d hd => h d (by simp [hd]))]
    rfl

/-- C1 counterexample: for documents `[('l' ↦ [1]), ('l' ↦ 0), ('l' ↦ [2])]`
with `list_merge='append'`, the driver's right-to-left fold gives
`('l' ↦ [1,2])` while the straightforward left-to-right fold gives
`('l' ↦ [2])`, so the two fold orders are not equivalent for every policy. -/
theorem combine_fold_order_counterexample :
    combine_devel 9 [.map [("l", .seq [.int 1])], .map [("l", .int 0)],
        .map [("l", .seq [.int 2])]] false "append"
      = some (.ok (.map [("l", .seq [.int 1, .int 2])])) ∧
    combineLTR 9 [.map [("l", .seq [.int 1])], .map [("l", .int 0)],
        .map [("l", .seq [.int 2])]] false "append"
      = some (.ok (.map [("l", .seq [.int 2])])) ∧
    pyEq (.map [("l", .seq [.int 1, .int 2])]) (.map [("l", .seq [.int 2])]) = false :=
  ⟨rfl, rfl, rfl⟩

/-- The fold orders also disagree under `list_merge='keep'` on the same
documents (supporting evidence that only the default policy makes the claim
true). -/
theorem combine_fold_order_keep_example :
    combine_devel 9 [.map [("l", .seq [.int 1])], .map [("l", .int 0)],
        .map [("l", .seq [.int 2])]] false "keep"
      = some (.ok (.map [("l", .seq [.int 1])])) ∧
    combineLTR 9 [.map [("l", .seq [.int 1])], .map [("l", .int 0)],
        .map [("l", .seq [.int 2])]] false "keep"
      = some (.ok (.map [("l", .seq [.int 2])])) :=
  ⟨rfl, rfl⟩

/-- The fold orders also disagree under `recursive=True` with
`list_merge='replace'` when a key's value changes between dict and scalar
across documents. -/
theorem combine_fold_order_recursive_example :
    combine_devel 9 [.map [("a", .map [("x", .int 1)])], .map [("a", .int 0)],
        .map [("a", .map [("y", .int 2)])]] true "replace"
      = some (.ok (.map [("a", .map [("x", .int 1), ("y", .int 2)])])) ∧
    combineLTR 9 [.map [("a", .map [("x", .int 1)])], .map [("a", .int 0)],
        .map [("a", .map [("y", .int 2)])]] true "replace"
      = some (.ok (.map [("a", .map [("y", .int 2)])])) :=
  ⟨rfl, rfl⟩

theorem combine_devel_two (fuel : Nat) (d1 d2 : Value) (rest : List Value)
    (r : Bool) (lm : String)
    (hfl : flatten (d1 :: d2 :: rest) (some 1) = d1 :: d2 :: rest) :
    combine_devel fuel (d1 :: d2 :: rest) r lm
      = match (d1 :: d2 :: rest).reverse with
        | [] => some (.ok (.map []))
        | dl :: restRev => mergeFoldRTL fuel dl restRev r lm := by
  rw [combine_devel, hfl]

/-- C1 amended: with `recursive=False` and `list_merge='replace'` (the
driver's defaults), the driver's right-to-left fold produces a result Python-
equal to the straightforward left-to-right fold in which each later document
overrides earlier ones; for the other policies, and for `recursive=True`,
the two fold orders can disagree (see `combine_fold_order_counterexample`). -/
theorem combine_fold_equiv_nonrecursive_replace (fuel : Nat) (ds : List Value)
    (hlen : 2 ≤ ds.length) (hgood : ∀ d ∈ ds, GoodDoc d) :
    ∃ z1 z2, combine_devel (fuel+1) ds false "replace" = some (.ok z1) ∧
      combineLTR (fuel+1) ds false "replace" = some (.ok z2) ∧ pyEq z1 z2 = true := by
  cases ds with
  | nil => simp at hlen
  | cons d1 t =>
    cases t with
    | nil => simp at hlen
    | cons d2 rest =>
      have hfl : flatten (d1 :: d2 :: rest) (some 1) = d1 :: d2 :: rest :=
        flatten_of_maps _ (fun d hd => (hgood d hd).elim (fun m hm => ⟨m, hm.1⟩)) _
      rcases hrev : (d1 :: d2 :: rest).reverse with _ | ⟨dl, restRev⟩
      · have := congrArg List.length hrev
        simp at this
      · have hmem_dl : dl ∈ d1 :: d2 :: rest := by
          have h1 : dl ∈ (d1 :: d2 :: rest).reverse := by rw [hrev]; simp
          exact List.mem_reverse.1 h1
        have hmem_rev : ∀ d ∈ restRev, d ∈ d1 :: d2 :: rest := by
          intro d hd
          have h1 : d ∈ (d1 :: d2 :: rest).reverse := by rw [hrev]; simp [hd]
          exact List.mem_reverse.1 h1
        obtain ⟨ml, hdl, hnl⟩ := hgood dl hmem_dl
        obtain ⟨mz1, hz1, hnz1, hlz1⟩ :=
          mergeFoldRTL_replace fuel restRev ml (fun d hd => hgood d (hmem_rev d hd)) hnl
        obtain ⟨m1, hd1, hn1⟩ := hgood d1 (by simp)
        obtain ⟨mz2, hz2, hnz2, hlz2⟩ :=
          mergeFoldLTR_replace fuel (d2 :: rest) m1
            (fun d hd => hgood d (List.mem_cons_of_mem d1 hd)) hn1
        refine ⟨.map mz1, .map mz2, ?_, ?_, ?_⟩
        · rw [combine_devel_two (fuel+1) d1 d2 rest false "replace" hfl, hrev, hdl]
          exact hz1
        · show mergeFoldLTR (fuel+1) d1 (d2 :: rest) false "replace" = _
          rw [hd1]
          exact hz2
        · apply pyEq_of_lookup_eq mz1 mz2 hnz1 hnz2
          intro j
          rw [hlz1 j, hlz2 j]
          have e1 : lookupV j ml = docLook dl j := by rw [hdl]; rfl
          rw [e1, foldl_orO_first]
          have e2 : orO (docLook dl j) (firstLook restRev j)
              = firstLook ((d1 :: d2 :: rest).reverse) j := by
            rw [hrev]; rfl
          rw [e2, firstLook_reverse]
          have e3 : lookupV j m1 = docLook d1 j := by rw [hd1]; rfl
          rw [e3, foldl_orO_last]
          rfl

theorem combine_fold_equiv_nonrecursive_replace_witness :
    ∃ z1 z2,
      combine_devel 9 [.map [("a", .int 1)], .map [("a", .int 2), ("b", .int 3)]]
        false "replace" = some (.ok z1) ∧
      combineLTR 9 [.map [("a", .int 1)], .map [("a", .int 2), ("b", .int 3)]]
        false "replace" = some (.ok z2) ∧
      pyEq z1 z2 = true :=
  combine_fold_equiv_nonrecursive_replace 8 _ (by decide)
    (by
      intro d hd
      rcases List.mem_cons.1 hd with rfl | hd2
      · exact ⟨_, rfl, by decide⟩
      · rcases List.mem_cons.1 hd2 with rfl | hd3
        · exact ⟨_, rfl, by decide⟩
        · simp at hd3)

theorem mergeEntries_keys : ∀ (fuel : Nat) (rest acc : List (String × Value)) (r : Bool)
    (lm : String) (z : List (String × Value)),
    mergeEntries fuel acc rest r lm = some (.ok z) →
    ∀ j, j ∈ z.map Prod.fst ↔ j ∈ acc.map Prod.fst ∨ j ∈ rest.map Prod.fst := by
  intro fuel
  induction fuel with
  | zero =>
    intro rest acc r lm z hz j
    rw [mergeEntries] at hz
    simp at hz
  | succ fuel ih =>
    intro rest acc r lm z hz j
    cases rest with
    | nil =>
      rw [mergeEntries] at hz
      simp only [Option.some.injEq, Except.ok.injEq] at hz
      subst hz
      simp
    | cons p rest2 =>
      obtain ⟨key, yv⟩ := p
      have step : ∀ (w : Value),
          mergeEntries fuel (setKey acc key w) rest2 r lm = some (.ok z) →
          (j ∈ z.map Prod.fst ↔
            j ∈ acc.map Prod.fst ∨ j ∈ ((key, yv) :: rest2).map Prod.fst) := by
        intro w hw
        rw [ih rest2 (setKey acc key w) r lm z hw j, mem_keys_setKey]
        simp only [List.map_cons, List.mem_cons]
        tauto
      rw [mergeEntries] at hz
      split at hz
      · exact step _ hz
      · split at hz
        · split at hz
          · split at hz
            · exact step _ hz
            · simp at hz
            · simp at hz
          · exact step _ hz
        · exact step _ hz
        · exact step _ hz

/-- C9: for dict operands and any policy, a successful `merge_hash` returns a
dict whose key set is exactly the union of the two operands' key sets: no key
is dropped and none is invented, under every `list_merge` policy and both
values of `recursive`. -/
theorem merge_hash_key_union (fuel : Nat) (mx my : List (String × Value)) (r : Bool)
    (lm : String) (z : Value)
    (hz : merge_hash fuel (.map mx) (.map my) r lm = some (.ok z)) :
    ∃ mz, z = .map mz ∧
      ∀ j, j ∈ mz.map Prod.fst ↔ j ∈ mx.map Prod.fst ∨ j ∈ my.map Prod.fst := by
  cases fuel with
  | zero =>
    rw [merge_hash] at hz
    simp at hz
  | succ fuel =>
    rw [merge_hash] at hz
    split at hz
    · simp at hz
    · split at hz
      · rename_i hfast
        simp only [Option.some.injEq, Except.ok.injEq] at hz
        subst hz
        refine ⟨my, rfl, fun j => ?_⟩
        rcases Bool.or_eq_true_iff.1 hfast with he | he
        · have hmx : mx = [] := pyEq_empty_right mx he
          subst hmx
          simp
        · constructor
          · exact fun hj => Or.inr hj
          · rintro (hj | hj)
            · exact (pyEq_map_keys mx my he j).1 hj
            · exact hj
      · split at hz
        · simp only [Option.some.injEq, Except.ok.injEq] at hz
          subst hz
          exact ⟨dictUpdate mx my, rfl, fun j => mem_keys_dictUpdate my mx j⟩
        · split at hz
          · rename_i w heq
            simp only [Option.some.injEq, Except.ok.injEq] at hz
            subst hz
            exact ⟨w, rfl, fun j => mergeEntries_keys fuel my mx r lm w heq j⟩
          · simp at hz
          · simp at hz

theorem merge_hash_key_union_witness :
    ∃ mz, (Value.map [("a", Value.int 1), ("b", Value.int 2)]) = Value.map mz ∧
      ∀ j, j ∈ mz.map Prod.fst ↔
        j ∈ [("a", Value.int 1)].map Prod.fst ∨ j ∈ [("b", Value.int 2)].map Prod.fst :=
  merge_hash_key_union 9 [("a", .int 1)] [("b", .int 2)] true "replace"
    (.map [("a", .int 1), ("b", .int 2)]) rfl

theorem merge_no_invalid : ∀ (fuel : Nat),
    (∀ (x y : Value) (r : Bool) (lm : String), policies.contains lm = true →
      merge_hash fuel x y r lm ≠ some (.error .invalidPolicy)) ∧
    (∀ (acc rest : List (String × Value)) (r : Bool) (lm : String),
      policies.contains lm = true →
      mergeEntries fuel acc rest r lm ≠ some (.error .invalidPolicy)) := by
  intro fuel
  induction fuel with
  | zero =>
    constructor
    · intro x y r lm _
      rw [merge_hash]
      simp
    · intro acc rest r lm _
      rw [mergeEntries]
      simp
  | succ fuel ih =>
    obtain ⟨ihm, ihe⟩ := ih
    constructor
    · intro x y r lm hpol
      have hneg : (!policies.contains lm) = false := by rw [hpol]; rfl
      cases x <;> cases y <;> intro hc <;> simp only [merge_hash, hneg] at hc <;>
        try simp at hc
      split at hc
      · simp at hc
      · split at hc
        · simp at hc
        · split at hc
          · simp at hc
          · rename_i e heq
            simp only [Option.some.injEq, Except.error.injEq] at hc
            subst hc
            exact ihe _ _ _ _ hpol heq
          · simp at hc
    · intro acc rest r lm hpol
      cases rest with
      | nil =>
        rw [mergeEntries]
        simp
      | cons p rest2 =>
        obtain ⟨key, yv⟩ := p
        rw [mergeEntries]
        split
        · exact ihe _ _ _ _ hpol
        · split
          · split
            · split
              · exact ihe _ _ _ _ hpol
              · rename_i e heq
                intro hc
                simp only [Option.some.injEq, Except.error.injEq] at hc
                subst hc
                exact ihm _ _ _ _ hpol heq
              · simp
            · exact ihe _ _ _ _ hpol
          · exact ihe _ _ _ _ hpol
          · exact ihe _ _ _ _ hpol

/-- C6: `merge_hash` reports InvalidPolicy exactly when its `list_merge`
argument is not one of the six recognized values, and the check runs before
everything else: with an unrecognized policy the error is produced for
arbitrary operands (even non-dicts), so no partial work is done. -/
theorem merge_hash_invalid_policy_iff (fuel : Nat) (x y : Value) (r : Bool) (lm : String) :
    merge_hash (fuel+1) x y r lm = some (.error .invalidPolicy) ↔ lm ∉ policies := by
  constructor
  · intro h
    intro hmem
    have hcon : policies.contains lm = true := List.elem_iff.2 hmem
    exact (merge_no_invalid (fuel+1)).1 x y r lm hcon h
  · intro h
    have hcon : policies.contains lm = false := by
      by_contra hc
      exact h (List.elem_iff.1 (eq_true_of_ne_false hc))
    have hpos : (!policies.contains lm) = true := by rw [hcon]; rfl
    cases x <;> cases y <;> simp only [merge_hash, hpos] <;> simp

/-- Whether a value is a Python dict. -/
def isMapV : Value → Bool
  | .map _ => true
  | _ => false

/-- C7: with a recognized policy, whenever either operand is not a dict,
`merge_hash` fails with the TypeMismatch error whose message carries the
runtime type names and the serializations of both operands.  Recursive
sub-merges run the same validation: they invoke `merge_hash` itself, so this
statement covers every recursion depth (the code only descends when both
nested values are dicts, hence the sub-check never fires). -/
theorem merge_hash_type_mismatch_error (fuel : Nat) (x y : Value) (r : Bool) (lm : String)
    (hpol : policies.contains lm = true) (hxy : (isMapV x && isMapV y) = false) :
    merge_hash (fuel+1) x y r lm = some (.error (.typeMismatch (combineErrMsg x y))) ∧
    (∃ s1 s2, combineErrMsg x y = s1 ++ dumps x ++ s2) ∧
    (∃ s1 s2, combineErrMsg x y = s1 ++ dumps y ++ s2) ∧
    (∃ s1 s2, combineErrMsg x y = s1 ++ typeName x ++ s2) ∧
    (∃ s1 s2, combineErrMsg x y = s1 ++ typeName y ++ s2) := by
  have hneg : (!policies.contains lm) = false := by rw [hpol]; rfl
  refine ⟨?_, ?_, ?_, ?_, ?_⟩
  · cases x <;> cases y <;> simp only [merge_hash, hneg] <;> try rfl
    all_goals simp [isMapV] at hxy
  · exact ⟨"failed to combine variables, expected dicts but got a '" ++ typeName x ++
      "' and a '" ++ typeName y ++ "': \n", "\n" ++ dumps y,
      by simp [combineErrMsg, String.append_assoc]⟩
  · exact ⟨"failed to combine variables, expected dicts but got a '" ++ typeName x ++
      "' and a '" ++ typeName y ++ "': \n" ++ dumps x ++ "\n", "",
      by simp [combineErrMsg, String.append_assoc]⟩
  · exact ⟨"failed to combine variables, expected dicts but got a '",
      "' and a '" ++ typeName y ++ "': \n" ++ dumps x ++ "\n" ++ dumps y,
      by simp [combineErrMsg, String.append_assoc]⟩
  · exact ⟨"failed to combine variables, expected dicts but got a '" ++ typeName x ++
      "' and a '", "': \n" ++ dumps x ++ "\n" ++ dumps y,
      by simp [combineErrMsg, String.append_assoc]⟩

theorem merge_hash_type_mismatch_error_witness :
    merge_hash 1 (.seq [.int 1, .int 2]) (.map [("a", .int 1)]) true "replace"
      = some (.error (.typeMismatch
          (combineErrMsg (.seq [.int 1, .int 2]) (.map [("a", .int 1)])))) ∧
    (∃ s1 s2, combineErrMsg (.seq [.int 1, .int 2]) (.map [("a", .int 1)])
      = s1 ++ dumps (.seq [.int 1, .int 2]) ++ s2) ∧
    (∃ s1 s2, combineErrMsg (.seq [.int 1, .int 2]) (.map [("a", .int 1)])
      = s1 ++ dumps (.map [("a", .int 1)]) ++ s2) ∧
    (∃ s1 s2, combineErrMsg (.seq [.int 1, .int 2]) (.map [("a", .int 1)])
      = s1 ++ typeName (.seq [.int 1, .int 2]) ++ s2) ∧
    (∃ s1 s2, combineErrMsg (.seq [.int 1, .int 2]) (.map [("a", .int 1)])
      = s1 ++ typeName (.map [("a", .int 1)]) ++ s2) :=
  merge_hash_type_mismatch_error 0 (.seq [.int 1, .int 2]) (.map [("a", .int 1)])
    true "replace" rfl rfl

/-- Heap cells: one Python object each; sequences and dicts hold the
addresses of their elements, mirroring Python reference semantics. -/
inductive HVal where
  | hnull : HVal
  | hint (n : Int) : HVal
  | hstr (s : String) : HVal
  | hseq (elems : List Nat) : HVal
  | hmap (entries : List (String × Nat)) : HVal

/-- The object store: the object at address `a` is `mem[a]`; allocation
appends at the end. -/
structure Heap where
  mem : List HVal

/-- Dereference an address. -/
def Heap.read (h : Heap) (a : Nat) : Option HVal := h.mem[a]?

/-- Allocate a fresh object, returning the new heap and its address. -/
def Heap.alloc (h : Heap) (v : HVal) : Heap × Nat := (⟨h.mem ++ [v]⟩, h.mem.length)

/-- Overwrite the object at an existing address (`x[key] = v` after the
enclosing dict is located). -/
def Heap.write (h : Heap) (a : Nat) (v : HVal) : Heap := ⟨h.mem.set a v⟩

/-- The addresses a cell refers to directly. -/
def cellAddrs : HVal → List Nat
  | .hseq es => es
  | .hmap ps => ps.map Prod.snd
  | _ => []

/-- A well-formed heap: every stored reference points below the allocation
frontier. -/
def HeapClosed (h : Heap) : Bool :=
  h.mem.all (fun c => (cellAddrs c).all (fun a => a < h.mem.length))

mutual
/-- Fuelled readback of the value graph rooted at an address (`none` when
the address dangles or the fuel runs out). -/
def readV : Nat → Heap → Nat → Option Value
  | 0, _, _ => none
  | fuel+1, h, a =>
    match h.read a with
    | some .hnull => some .null
    | some (.hint n) => some (.int n)
    | some (.hstr s) => some (.str s)
    | some (.hseq es) =>
      match readVL fuel h es with
      | some l => some (.seq l)
      | none => none
    | some (.hmap ps) =>
      match readVM fuel h ps with
      | some m => some (.map m)
      | none => none
    | none => none

/-- Readback of a list of addresses. -/
def readVL : Nat → Heap → List Nat → Option (List Value)
  | 0, _, _ => none
  | _+1, _, [] => some []
  | fuel+1, h, a :: rest =>
    match readV fuel h a, readVL fuel h rest with
    | some v, some l => some (v :: l)
    | _, _ => none

/-- Readback of dict entries. -/
def readVM : Nat → Heap → List (String × Nat) → Option (List (String × Value))
  | 0, _, _ => none
  | _+1, _, [] => some []
  | fuel+1, h, (k, a) :: rest =>
    match readV fuel h a, readVM fuel h rest with
    | some v, some m => some ((k, v) :: m)
    | _, _ => none
end

/-- Python `==` on two readbacks (used for the fast-path test and `_rp`
membership at the heap level). -/
def pyEqO : Option Value → Option Value → Bool
  | some v, some w => pyEq v w
  | _, _ => false

/-- `lookupV` on address-valued dict entries. -/
def lookupA (k : String) : List (String × Nat) → Option Nat
  | [] => none
  | (k2, a) :: rest => if k2 = k then some a else lookupA k rest

/-- `setKey` on address-valued dict entries. -/
def setA : List (String × Nat) → String → Nat → List (String × Nat)
  | [], k, a => [(k, a)]
  | (k2, a2) :: rest, k, a =>
    if k2 = k then (k, a) :: rest else (k2, a2) :: setA rest k a

/-- `x.update(y)` at the heap level: store each entry of `y` into the dict
object at `cx`, in order. -/
def updateAllH (h : Heap) (cx : Nat) : List (String × Nat) → Heap
  | [] => h
  | (k, av) :: rest =>
    match h.read cx with
    | some (.hmap es) => updateAllH (h.write cx (.hmap (setA es k av))) cx rest
    | _ => updateAllH h cx rest

/-- Python `z in y_value` at the heap level: some element of `eb` reads back
`==`-equal to `za`'s readback. -/
def memElemH (fuel : Nat) (h : Heap) (za : Nat) (eb : List Nat) : Bool :=
  eb.any (fun zb => pyEqO (readV fuel h za) (readV fuel h zb))

mutual
/-- `merge_hash` over the explicit heap: the same code as `merge_hash`, with
`y.copy()` and `x.copy()` as allocations, `x[key] = v` as stores into the
copy, and the list policies allocating their fresh result lists.  `none`
covers the error cases and fuel exhaustion; the frame theorem below shows a
successful call never writes below the incoming allocation frontier. -/
def mergeH : Nat → Heap → Nat → Nat → Bool → String → Option (Heap × Nat)
  | 0, _, _, _, _, _ => none
  | fuel+1, h, ax, ay, recursive, list_merge =>
    if ! policies.contains list_merge then none
    else match h.read ax, h.read ay with
      | some (.hmap mx), some (.hmap my) =>
        if pyEqO (readV (fuel+1) h ax) (some (.map [])) ||
            pyEqO (readV (fuel+1) h ax) (readV (fuel+1) h ay) then
          some (h.alloc (.hmap my))
        else match h.alloc (.hmap mx) with
          | (h1, cx) =>
            if !recursive && list_merge == "replace" then
              some (updateAllH h1 cx my, cx)
            else match mergeLoopH fuel h1 cx my recursive list_merge with
              | some h2 => some (h2, cx)
              | none => none
      | _, _ => none

/-- The per-key loop of `mergeH`: `cx` is the address of the working copy of
`x`, and each item of `y` is merged into it exactly as in `mergeEntries`. -/
def mergeLoopH : Nat → Heap → Nat → List (String × Nat) → Bool → String → Option Heap
  | 0, _, _, _, _, _ => none
  | _+1, h, _, [], _, _ => some h
  | fuel+1, h, cx, (key, ayv) :: rest, recursive, list_merge =>
    match h.read cx with
    | some (.hmap es) =>
      match lookupA key es with
      | none =>
        mergeLoopH fuel (h.write cx (.hmap (setA es key ayv))) cx rest recursive list_merge
      | some axv =>
        match h.read axv, h.read ayv with
        | some (.hmap _), some (.hmap _) =>
          if recursive then
            match mergeH fuel h axv ayv recursive list_merge with
            | some (h2, m) =>
              match h2.read cx with
              | some (.hmap es2) =>
                mergeLoopH fuel (h2.write cx (.hmap (setA es2 key m))) cx rest
                  recursive list_merge
              | _ => none
            | none => none
          else
            mergeLoopH fuel (h.write cx (.hmap (setA es key ayv))) cx rest recursive list_merge
        | some (.hseq ea), some (.hseq eb) =>
          if list_merge == "replace" then
            mergeLoopH fuel (h.write cx (.hmap (setA es key ayv))) cx rest recursive list_merge
          else if list_merge == "keep" then
            mergeLoopH fuel h cx rest recursive list_merge
          else if list_merge == "append" then
            match h.alloc (.hseq (ea ++ eb)) with
            | (h2, la) =>
              mergeLoopH fuel (h2.write cx (.hmap (setA es key la))) cx rest
                recursive list_merge
          else if list_merge == "prepend" then
            match h.alloc (.hseq (eb ++ ea)) with
            | (h2, la) =>
              mergeLoopH fuel (h2.write cx (.hmap (setA es key la))) cx rest
                recursive list_merge
          else if list_merge == "append_rp" then
            match h.alloc (.hseq (ea.filter (fun za => ! memElemH (fuel+1) h za eb) ++ eb)) with
            | (h2, la) =>
              mergeLoopH fuel (h2.write cx (.hmap (setA es key la))) cx rest
                recursive list_merge
          else
            match h.alloc (.hseq (eb ++ ea.filter (fun za => ! memElemH (fuel+1) h za eb))) with
            | (h2, la) =>
              mergeLoopH fuel (h2.write cx (.hmap (setA es key la))) cx rest
                recursive list_merge
        | some _, some _ =>
          mergeLoopH fuel (h.write cx (.hmap (setA es key ayv))) cx rest recursive list_merge
        | _, _ => none
    | _ => none
end

theorem Heap.read_alloc_lt (h : Heap) (v : HVal) (a : Nat) (ha : a < h.mem.length) :
    (h.alloc v).1.read a = h.read a := by
  simp only [Heap.alloc, Heap.read]
  exact List.getElem?_append_left ha

theorem Heap.alloc_length (h : Heap) (v : HVal) :
    (h.alloc v).1.mem.length = h.mem.length + 1 := by
  simp [Heap.alloc]

theorem Heap.read_alloc_self (h : Heap) (v : HVal) :
    (h.alloc v).1.read (h.alloc v).2 = some v := by
  simp only [Heap.alloc, Heap.read]
  exact List.getElem?_concat_length _ _

theorem Heap.write_length (h : Heap) (a : Nat) (v : HVal) :
    (h.write a v).mem.length = h.mem.length := by
  simp [Heap.write]

theorem Heap.read_write_ne (h : Heap) (a b : Nat) (v : HVal) (hne : b ≠ a) :
    (h.write a v).read b = h.read b := by
  simp only [Heap.write, Heap.read]
  exact List.getElem?_set_ne (fun he => hne he.symm)

theorem updateAllH_frame : ∀ (my : List (String × Nat)) (h : Heap) (cx : Nat),
    (updateAllH h cx my).mem.length = h.mem.length ∧
    ∀ a, a ≠ cx → (updateAllH h cx my).read a = h.read a := by
  intro my
  induction my with
  | nil => intro h cx; exact ⟨rfl, fun a _ => rfl⟩
  | cons p rest ih =>
    intro h cx
    obtain ⟨k, av⟩ := p
    rw [updateAllH]
    split
    · constructor
      · rw [(ih _ cx).1, Heap.write_length]
      · intro a ha
        rw [(ih _ cx).2 a ha, Heap.read_write_ne _ _ _ _ ha]
    · exact ih h cx

theorem mergeH_frame : ∀ (fuel : Nat),
    (∀ (h : Heap) (ax ay : Nat) (r : Bool) (lm : String) (h2 : Heap) (ar : Nat),
      mergeH fuel h ax ay r lm = some (h2, ar) →
      h.mem.length ≤ h2.mem.length ∧ ∀ a, a < h.mem.length → h2.read a = h.read a) ∧
    (∀ (h : Heap) (cx : Nat) (rest : List (String × Nat)) (r : Bool) (lm : String) (h2 : Heap),
      mergeLoopH fuel h cx rest r lm = some h2 →
      h.mem.length ≤ h2.mem.length ∧ ∀ a, a < h.mem.length → a ≠ cx → h2.read a = h.read a) := by
  intro fuel
  induction fuel with
  | zero =>
    constructor
    · intro h ax ay r lm h2 ar hmg
      rw [mergeH] at hmg
      simp at hmg
    · intro h cx rest r lm h2 hmg
      rw [mergeLoopH] at hmg
      simp at hmg
  | succ fuel ih =>
    obtain ⟨ihm, ihl⟩ := ih
    have hwstep : ∀ (h : Heap) (cx : Nat) (rest : List (String × Nat)) (r : Bool)
        (lm : String) (h2 : Heap) (es : List (String × Nat)) (w : Nat) (key : String),
        mergeLoopH fuel (h.write cx (.hmap (setA es key w))) cx rest r lm = some h2 →
        h.mem.length ≤ h2.mem.length ∧
          ∀ a, a < h.mem.length → a ≠ cx → h2.read a = h.read a := by
      intro h cx rest r lm h2 es w key hloop
      have hfr := ihl _ _ _ _ _ _ hloop
      rw [Heap.write_length] at hfr
      obtain ⟨hlen, hrd⟩ := hfr
      refine ⟨hlen, fun a ha hacx => ?_⟩
      rw [hrd a ha hacx]
      exact Heap.read_write_ne h cx a _ hacx
    constructor
    · intro h ax ay r lm h2 ar hmg
      rw [mergeH] at hmg
      split at hmg
      · simp at hmg
      · split at hmg
        · split at hmg
          · simp only [Option.some.injEq, Heap.alloc, Prod.mk.injEq] at hmg
            obtain ⟨hh2, har⟩ := hmg
            subst hh2
            constructor
            · simp only [List.length_append, List.length_singleton]
              omega
            · intro a ha
              simp only [Heap.read]
              exact List.getElem?_append_left ha
          · split at hmg
            · rename_i h1 cx halloc
              rename_i mx my hrx hry hfast hpair
              simp only [Heap.alloc, Prod.mk.injEq] at halloc
              obtain ⟨hH1, hCx⟩ := halloc
              subst hH1
              subst hCx
              split at hmg
              · simp only [Option.some.injEq, Prod.mk.injEq] at hmg
                obtain ⟨hh2, har⟩ := hmg
                subst hh2
                have hfr := updateAllH_frame my (⟨h.mem ++ [.hmap mx]⟩ : Heap) h.mem.length
                constructor
                · rw [hfr.1]
                  simp only [List.length_append, List.length_singleton]
                  omega
                · intro a ha
                  rw [hfr.2 a (by omega)]
                  simp only [Heap.read]
                  exact List.getElem?_append_left ha
              · split at hmg
                · rename_i h3 heq
                  simp only [Option.some.injEq, Prod.mk.injEq] at hmg
                  obtain ⟨hh2, har⟩ := hmg
                  subst hh2
                  have hfr := ihl _ _ _ _ _ _ heq
                  simp only [List.length_append, List.length_singleton] at hfr
                  obtain ⟨hlen, hrd⟩ := hfr
                  constructor
                  · omega
                  · intro a ha
                    rw [hrd a (by omega) (by omega)]
                    simp only [Heap.read]
                    exact List.getElem?_append_left ha
                · simp at hmg
        · simp at hmg
    · intro h cx rest r lm h2 hmg
      cases rest with
      | nil =>
        rw [mergeLoopH] at hmg
        simp only [Option.some.injEq] at hmg
        subst hmg
        exact ⟨le_rfl, fun a _ _ => rfl⟩
      | cons p rest =>
        obtain ⟨key, ayv⟩ := p
        rw [mergeLoopH] at hmg
        split at hmg
        · split at hmg
          · -- lookup none: write then loop
            exact hwstep _ _ _ _ _ _ _ _ _ hmg
          · split at hmg
            · -- map/map
              split at hmg
              · -- recursive: inner merge, write into its heap, loop
                split at hmg
                · rename_i h3 m heqm
                  split at hmg
                  · have hfrm := ihm _ _ _ _ _ _ _ heqm
                    obtain ⟨hf1, hf2⟩ := hfrm
                    have hloop := ihl _ _ _ _ _ _ hmg
                    rw [Heap.write_length] at hloop
                    obtain ⟨hl1, hl2⟩ := hloop
                    refine ⟨by omega, fun a ha hacx => ?_⟩
                    rw [hl2 a (by omega) hacx, Heap.read_write_ne _ _ _ _ hacx, hf2 a ha]
                  · simp at hmg
                · simp at hmg
              · exact hwstep _ _ _ _ _ _ _ _ _ hmg
            · -- seq/seq policies
              have hallocstep : ∀ (els : List Nat) (es : List (String × Nat)) (h2x : Heap)
                  (la : Nat),
                  Heap.alloc h (.hseq els) = (h2x, la) →
                  mergeLoopH fuel (h2x.write cx (.hmap (setA es key la))) cx rest r lm
                    = some h2 →
                  h.mem.length ≤ h2.mem.length ∧
                    ∀ a, a < h.mem.length → a ≠ cx → h2.read a = h.read a := by
                intro els es h2x la hal hloop
                simp only [Heap.alloc, Prod.mk.injEq] at hal
                obtain ⟨hH, hL⟩ := hal
                subst hH
                have hfr := ihl _ _ _ _ _ _ hloop
                simp only [Heap.write_length, List.length_append,
                  List.length_singleton] at hfr
                obtain ⟨hlen, hrd⟩ := hfr
                constructor
                · omega
                · intro a ha hacx
                  rw [hrd a (by omega) hacx, Heap.read_write_ne _ _ _ _ hacx]
                  simp only [Heap.read]
                  exact List.getElem?_append_left ha
              split at hmg
              · exact hwstep _ _ _ _ _ _ _ _ _ hmg
              · split at hmg
                · -- keep: no write
                  exact ihl _ _ _ _ _ _ hmg
                · split at hmg
                  · split at hmg
                    rename_i hq
                    exact hallocstep _ _ _ _ hq hmg
                  · split at hmg
                    · split at hmg
                      rename_i hq
                      exact hallocstep _ _ _ _ hq hmg
                    · split at hmg
                      · split at hmg
                        rename_i hq
                        exact hallocstep _ _ _ _ hq hmg
                      · split at hmg
                        rename_i hq
                        exact hallocstep _ _ _ _ hq hmg
            · -- scalar override
              exact hwstep _ _ _ _ _ _ _ _ _ hmg
            · simp at hmg
        · simp at hmg

theorem closed_spec (h : Heap) (a : Nat) (c : HVal) (hc : HeapClosed h = true)
    (hra : h.read a = some c) : ∀ b, b ∈ cellAddrs c → b < h.mem.length := by
  intro b hb
  simp only [Heap.read] at hra
  have hcm : c ∈ h.mem := List.getElem?_mem hra
  simp only [HeapClosed] at hc
  have h1 := (List.all_eq_true.1 hc) c hcm
  have h2 := (List.all_eq_true.1 h1) b hb
  exact of_decide_eq_true h2

/-- Readback only looks below the old allocation frontier of a closed heap, so
any extension of the heap that preserves those cells preserves every readback. -/
theorem readV_stable : ∀ (f : Nat) (h h2 : Heap),
    HeapClosed h = true →
    (∀ b, b < h.mem.length → h2.read b = h.read b) →
    (∀ a, a < h.mem.length → readV f h2 a = readV f h a) ∧
    (∀ es, (∀ b ∈ es, b < h.mem.length) → readVL f h2 es = readVL f h es) ∧
    (∀ ps, (∀ p ∈ ps, p.2 < h.mem.length) → readVM f h2 ps = readVM f h ps) := by
  intro f
  induction f with
  | zero =>
    intro h h2 hc hrd
    exact ⟨fun a _ => rfl, fun es _ => rfl, fun ps _ => rfl⟩
  | succ f ih =>
    intro h h2 hc hrd
    obtain ⟨ihv, ihL, ihM⟩ := ih h h2 hc hrd
    refine ⟨?_, ?_, ?_⟩
    · intro a ha
      simp only [readV, hrd a ha]
      cases hra : h.read a with
      | none => rfl
      | some c =>
        cases c with
        | hnull => rfl
        | hint n => rfl
        | hstr s => rfl
        | hseq es =>
          have hb : ∀ b ∈ es, b < h.mem.length := fun b hb =>
            closed_spec h a _ hc hra b (by simpa [cellAddrs] using hb)
          simp only [ihL es hb]
        | hmap ps =>
          have hb : ∀ p ∈ ps, p.2 < h.mem.length := fun p hp =>
            closed_spec h a _ hc hra p.2
              (by simp only [cellAddrs]; exact List.mem_map_of_mem Prod.snd hp)
          simp only [ihM ps hb]
    · intro es hb
      cases es with
      | nil => rfl
      | cons a rest =>
        simp only [readVL]
        rw [ihv a (hb a (List.mem_cons_self a rest)),
          ihL rest (fun b hbr => hb b (List.mem_cons_of_mem a hbr))]
    · intro ps hb
      cases ps with
      | nil => rfl
      | cons p rest =>
        obtain ⟨k, a⟩ := p
        simp only [readVM]
        rw [ihv a (hb (k, a) (List.mem_cons_self _ rest)),
          ihM rest (fun q hq => hb q (List.mem_cons_of_mem _ hq))]

/-- A sample heap: cell 2 is the dict `x = {'l': [1]}` (via cells 0,1) and
cell 5 is the dict `y = {'l': [2]}` (via cells 3,4). -/
def hEx : Heap := ⟨[.hint 1, .hseq [0], .hmap [("l", 1)], .hint 2, .hseq [3], .hmap [("l", 4)]]⟩

/-- The heap after `merge_hash(x, y, False, 'append')` on `hEx`: the merge
allocated a copy of `x` (cell 6) and the appended list (cell 7) and wrote only
into the copy; cells 0-5 are untouched. -/
def hEx2 : Heap := ⟨[.hint 1, .hseq [0], .hmap [("l", 1)], .hint 2, .hseq [3], .hmap [("l", 4)],
  .hmap [("l", 7)], .hseq [0, 3]]⟩

/-- C5: merge_hash never mutates its inputs.  In the heap model, where
`y.copy()`/`x.copy()` allocate and `result[key] = v` writes, a successful
`mergeH` only allocates above the incoming frontier and writes into the fresh
copy, so on a closed heap the full deep readback of both argument objects is
unchanged afterwards — each input deep-compares equal to its pre-call
snapshot at every nesting level. -/
theorem merge_hash_preserves_inputs (fuel : Nat) (h : Heap) (ax ay : Nat) (r : Bool)
    (lm : String) (h2 : Heap) (ar : Nat)
    (hc : HeapClosed h = true) (hax : ax < h.mem.length) (hay : ay < h.mem.length)
    (hmg : mergeH fuel h ax ay r lm = some (h2, ar)) :
    ∀ f, readV f h2 ax = readV f h ax ∧ readV f h2 ay = readV f h ay := by
  intro f
  have hfr := (mergeH_frame fuel).1 h ax ay r lm h2 ar hmg
  have hst := readV_stable f h h2 hc hfr.2
  exact ⟨hst.1 ax hax, hst.1 ay hay⟩

/-- Witness for C5 at `x = {'l': [1]}`, `y = {'l': [2]}`, `list_merge='append'`:
the call succeeds and both inputs read back unchanged. -/
theorem merge_hash_preserves_inputs_witness :
    readV 10 hEx2 2 = readV 10 hEx 2 ∧ readV 10 hEx2 5 = readV 10 hEx 5 :=
  merge_hash_preserves_inputs 10 hEx 2 5 false "append" hEx2 6
    (by decide) (by decide) (by decide) (by rfl) 10

/-- A sample heap for the identity law: cell 0 is `{}`, cell 1 is the dict
`y = {'a': 5}` (via cell 2). -/
def hEx8 : Heap := ⟨[.hmap [], .hmap [("a", 2)], .hint 5]⟩

/-- The heap after `merge_hash({}, y)` on `hEx8`: the fast path allocated the
shallow copy `y.copy()` as the fresh cell 3. -/
def hEx8m : Heap := ⟨[.hmap [], .hmap [("a", 2)], .hint 5, .hmap [("a", 2)]]⟩

/-- C8: idempotence and identity-via-copy.  For any valid policy,
`merge_hash(x, x)` returns `x` itself (the `x == y` fast path hands back a copy
of `y = x`), `merge_hash({}, y)` returns `y`, and in the heap model the result
of `merge_hash({}, y)` lives at a freshly allocated address distinct from `y`
while reading back deep-equal to `y`. -/
theorem merge_hash_idempotent_and_identity (fuel : Nat) (lm : String)
    (hpol : policies.contains lm = true)
    (h : Heap) (ax ay : Nat) (my : List (String × Nat)) (r : Bool) (h2 : Heap) (ar : Nat)
    (hc : HeapClosed h = true)
    (hx : h.read ax = some (.hmap []))
    (hy : h.read ay = some (.hmap my))
    (hay : ay < h.mem.length)
    (hmg : mergeH (fuel+2) h ax ay r lm = some (h2, ar)) :
    (∀ (mx : List (String × Value)) (rr : Bool),
      merge_hash (fuel+1) (.map mx) (.map mx) rr lm = some (.ok (.map mx))) ∧
    (∀ (myv : List (String × Value)) (rr : Bool),
      merge_hash (fuel+1) (.map []) (.map myv) rr lm = some (.ok (.map myv))) ∧
    ar ≠ ay ∧ ∀ f, readV (f+1) h2 ar = readV (f+1) h ay := by
  have hneg : (!policies.contains lm) = false := by rw [hpol]; rfl
  refine ⟨?_, ?_, ?_⟩
  · intro mx rr
    simp [merge_hash, hneg, pyEq_refl]
    exact List.elem_iff.1 hpol
  · intro myv rr
    simp [merge_hash, hneg, pyEq_refl]
    exact List.elem_iff.1 hpol
  · have hrv : readV (fuel+2) h ax = some (.map []) := by
      rw [readV, hx]
      rfl
    rw [mergeH, hneg, hx, hy] at hmg
    simp only [Bool.false_eq_true, if_false, hrv] at hmg
    simp only [pyEqO, pyEq_refl, Bool.true_or, if_true, Heap.alloc,
      Option.some.injEq, Prod.mk.injEq] at hmg
    obtain ⟨hh2, har⟩ := hmg
    subst hh2
    subst har
    refine ⟨by omega, ?_⟩
    intro f
    have hrd : ∀ b, b < h.mem.length →
        (⟨h.mem ++ [HVal.hmap my]⟩ : Heap).read b = h.read b := fun b hb => by
      simp only [Heap.read]
      exact List.getElem?_append_left hb
    have hst := readV_stable f h _ hc hrd
    have hb : ∀ p ∈ my, p.2 < h.mem.length := fun p hp =>
      closed_spec h ay _ hc hy p.2
        (by simp only [cellAddrs]; exact List.mem_map_of_mem Prod.snd hp)
    have hself : (⟨h.mem ++ [HVal.hmap my]⟩ : Heap).read h.mem.length
        = some (.hmap my) := by
      simp only [Heap.read]
      exact List.getElem?_concat_length _ _
    simp only [readV, hself, hy, hst.2.2 my hb]

/-- Witness for C8 at `lm='replace'`, `x = {}` at cell 0 and `y = {'a': 5}` at
cell 1 of `hEx8`: idempotence and identity hold, and the heap call returns the
fresh cell 3 ≠ 1 whose readback equals that of `y`. -/
theorem merge_hash_idempotent_and_identity_witness :
    (∀ (mx : List (String × Value)) (rr : Bool),
      merge_hash 2 (.map mx) (.map mx) rr "replace" = some (.ok (.map mx))) ∧
    (∀ (myv : List (String × Value)) (rr : Bool),
      merge_hash 2 (.map []) (.map myv) rr "replace" = some (.ok (.map myv))) ∧
    (3 : Nat) ≠ 1 ∧ ∀ f, readV (f+1) hEx8m 3 = readV (f+1) hEx8 1 :=
  merge_hash_idempotent_and_identity 1 "replace" (by rfl) hEx8 0 1 [("a", 2)] true
    hEx8m 3 (by decide) (by rfl) (by rfl) (by decide) (by rfl)
